import Mathlib

/-!
Verification of the two example notebooks in this repository:
`examples/NoiseInvestigation.ipynb` (a noise-parameter sweep computing
Z-basis expectation values from measured bitstrings) and
`examples/QubitPlaceholder.ipynb` (qubit placeholders and `address_qubits`).

The notebooks' own code is embedded directly.  Library calls whose source
is not part of this repository (`address_qubits`, `Program.out`,
`add_decoherence_noise`, `qc.run`) are modelled from the specification, as
marked in their doc comments.
-/

namespace PyquilNotebooks

variable {α : Type} [LinearOrderedField α]

/-! ## Aggregation arithmetic from NoiseInvestigation.ipynb

A measured bitstring array is a list of rows, each row a pair of natural
numbers (the two measured bits).  `np.mean` of a list of naturals is its
sum divided by its length. -/

/-- Mean of a list of naturals, as in `np.mean`: the sum divided by the
length, in an ordered field. -/
def npMean (l : List ℕ) : α :=
  (l.sum : α) / (l.length : α)

/-- First column of a bitstring array (bit of qubit 0 in each row). -/
def col0 (l : List (ℕ × ℕ)) : List ℕ :=
  l.map Prod.fst

/-- Second column of a bitstring array (bit of qubit 1 in each row). -/
def col1 (l : List (ℕ × ℕ)) : List ℕ :=
  l.map Prod.snd

/-- Row parity, as in `np.sum(bitstrings, axis=1) % 2` applied to one row. -/
def rowParity (r : ℕ × ℕ) : ℕ :=
  (r.1 + r.2) % 2

/-- `z0` from the sweep cell: the first component of
`1 - 2*np.mean(bitstrings, axis=0)`. -/
def z0 (l : List (ℕ × ℕ)) : α :=
  1 - 2 * npMean (col0 l)

/-- `z1` from the sweep cell: the second component of
`1 - 2*np.mean(bitstrings, axis=0)`. -/
def z1 (l : List (ℕ × ℕ)) : α :=
  1 - 2 * npMean (col1 l)

/-- `zz` from the sweep cell: `1 - (np.sum(bitstrings, axis=1) % 2).mean() * 2`. -/
def zz (l : List (ℕ × ℕ)) : α :=
  1 - npMean (l.map rowParity) * 2

/-- Every row of the array consists of bits, i.e. entries in `{0, 1}`. -/
def isBits (l : List (ℕ × ℕ)) : Prop :=
  ∀ r ∈ l, r.1 ≤ 1 ∧ r.2 ≤ 1

instance (l : List (ℕ × ℕ)) : Decidable (isBits l) :=
  List.decidableBAll _ l

/-! Spec-side formulations of the aggregation, written independently from
the spec's words ("z0 = 1 - 2*(mean of the first bit over all rows)" etc.),
with the mean taken over the cast bit values of each row. -/

/-- Spec formulation of `z0`: one minus twice the mean of the first bit
over all rows. -/
def specZ0 (l : List (ℕ × ℕ)) : α :=
  1 - 2 * ((l.map (fun r => (r.1 : α))).sum / (l.length : α))

/-- Spec formulation of `z1`: one minus twice the mean of the second bit
over all rows. -/
def specZ1 (l : List (ℕ × ℕ)) : α :=
  1 - 2 * ((l.map (fun r => (r.2 : α))).sum / (l.length : α))

/-- Spec formulation of `zz`: one minus twice the mean of the row parity
`(b0 + b1) mod 2` over all rows. -/
def specZZ (l : List (ℕ × ℕ)) : α :=
  1 - 2 * ((l.map (fun r => (((r.1 + r.2) % 2 : ℕ) : α))).sum / (l.length : α))

/-- Mean over all rows of the product of per-qubit signs
`(1 - 2*b0)*(1 - 2*b1)`. -/
def signProductMean (l : List (ℕ × ℕ)) : α :=
  (l.map (fun r => (1 - 2 * (r.1 : α)) * (1 - 2 * (r.2 : α)))).sum / (l.length : α)

/-! ## The compiled program and the noise sweep from NoiseInvestigation.ipynb -/

/-- A native-gate instruction as used by `get_compiled_prog`: `RZ(angle, q)`,
`RX(angle, q)` or `CZ(q1, q2)`. -/
inductive GateInstr : Type
  | RZ (angle : ℝ) (q : ℕ)
  | RX (angle : ℝ) (q : ℕ)
  | CZ (q1 q2 : ℕ)

/-- Direct transcription of `get_compiled_prog(theta)` from the notebook. -/
noncomputable def get_compiled_prog (theta : ℝ) : List GateInstr :=
  [ .RZ (-(Real.pi/2)) 0,
    .RX (-(Real.pi/2)) 0,
    .RZ (-(Real.pi/2)) 1,
    .RX (Real.pi/2) 1,
    .CZ 1 0,
    .RZ (-(Real.pi/2)) 1,
    .RX (-(Real.pi/2)) 1,
    .RZ theta 1,
    .RX (Real.pi/2) 1,
    .CZ 1 0,
    .RX (Real.pi/2) 0,
    .RZ (Real.pi/2) 0,
    .RZ (-(Real.pi/2)) 1,
    .RX (Real.pi/2) 1,
    .RZ (-(Real.pi/2)) 1 ]

/-- An instruction is in the native set the notebook claims for the
compiled program: any `RZ` on qubit 0 or 1, `RX` of `± pi/2` on qubit 0 or 1,
or `CZ` between qubits 0 and 1. -/
def nativeGate : GateInstr → Prop
  | .RZ _ q => q = 0 ∨ q = 1
  | .RX a q => (a = Real.pi/2 ∨ a = -(Real.pi/2)) ∧ (q = 0 ∨ q = 1)
  | .CZ a b => (a = 0 ∨ a = 1) ∧ (b = 0 ∨ b = 1)

/-- `np.linspace(a, b, num=n)`: `n` evenly spaced points from `a` to `b`. -/
noncomputable def linspace (a b : ℝ) (n : ℕ) : List ℝ :=
  (List.range n).map (fun i : ℕ => a + (i : ℝ) * ((b - a) / ((n : ℝ) - 1)))

/-- `np.logspace(a, b, num=n)`: powers of ten of `linspace a b n`. -/
noncomputable def logspace (a b : ℝ) (n : ℕ) : List ℝ :=
  (linspace a b n).map (fun x => (10 : ℝ) ^ x)

/-- `t1s = np.logspace(-6, -5, num=3)`. -/
noncomputable def t1s : List ℝ :=
  logspace (-6) (-5) 3

/-- `thetas = np.linspace(-pi, pi, num=20)`. -/
noncomputable def thetas : List ℝ :=
  linspace (-Real.pi) Real.pi 20

/-- Modelled from the spec: the submitted noisy program, whose construction
(`add_decoherence_noise(prog, T1=t1, T2=t1/2)`, the two appended `MEASURE`
instructions, and `wrap_in_numshots_loop(1000)`) lives in the external
library; the model records the gate list, the noise parameters `T1` and
`T2`, the measured qubits with their readout slots, and the shot count. -/
structure NoisyProgram : Type where
  gates : List GateInstr
  T1 : ℝ
  T2 : ℝ
  measures : List (ℕ × ℕ)
  shots : ℕ

/-- One record appended by the sweep: a dict with exactly the keys
`z0`, `z1`, `zz`, `theta`, `t1`. -/
structure SweepRecord : Type where
  z0 : ℝ
  z1 : ℝ
  zz : ℝ
  theta : ℝ
  t1 : ℝ

/-- The noisy program the sweep submits at grid point `(theta, t1)`. -/
noncomputable def noisyAt (theta t1 : ℝ) : NoisyProgram :=
  { gates := get_compiled_prog theta
    T1 := t1
    T2 := t1 / 2
    measures := [(0, 0), (1, 1)]
    shots := 1000 }

/-- The record built in the loop body from the bitstrings returned by
`qc.run` at grid point `(theta, t1)`. -/
noncomputable def sweepRecord (theta t1 : ℝ) (bs : List (ℕ × ℕ)) : SweepRecord :=
  { z0 := z0 bs
    z1 := z1 bs
    zz := zz bs
    theta := theta
    t1 := t1 }

/-- The nested sweep loop, transcribed from the notebook: `records = []`,
then for each `theta` in `thetas` (outer) and each `t1` in `t1s` (inner),
`records += [record]`.  The external call `qc.run` is modelled as the
function `run` from the submitted program to the returned bitstring array. -/
noncomputable def sweep (run : NoisyProgram → List (ℕ × ℕ)) : List SweepRecord :=
  thetas.foldl
    (fun records theta =>
      t1s.foldl
        (fun records t1 => records ++ [sweepRecord theta t1 (run (noisyAt theta t1))])
        records)
    []

/-! ## Placeholders and addressing from QubitPlaceholder.ipynb

The library code of `QubitPlaceholder`, `Program.out` and `address_qubits`
is not part of this repository; these are modelled from the specification
and the notebook's description of their behaviour. -/

/-- A qubit argument of a gate: either an unaddressed `QubitPlaceholder`
(identified by its creation id) or a physical qubit index. -/
inductive Qubit : Type
  | ph (id : ℕ)
  | idx (n : ℕ)
deriving DecidableEq

/-- An instruction of the placeholder notebook's programs: `H` or `CNOT`. -/
inductive QInstr : Type
  | H (q : Qubit)
  | CNOT (a b : Qubit)
deriving DecidableEq

/-- A program is its list of instructions. -/
abbrev QProgram := List QInstr

/-- The qubit arguments of one instruction, in argument order. -/
def instrQubits : QInstr → List Qubit
  | .H q => [q]
  | .CNOT a b => [a, b]

/-- The placeholder ids of one instruction, in argument order. -/
def instrPhs (i : QInstr) : List ℕ :=
  (instrQubits i).filterMap (fun q => match q with | .ph j => some j | .idx _ => none)

/-- The physical qubit indices of one instruction, in argument order. -/
def instrIdxs (i : QInstr) : List ℕ :=
  (instrQubits i).filterMap (fun q => match q with | .ph _ => none | .idx n => some n)

/-- All physical qubit indices appearing in a program. -/
def progIdxs (p : QProgram) : List ℕ :=
  p.flatMap instrIdxs

/-- Whether a program still contains an unaddressed placeholder. -/
def hasPlaceholder (p : QProgram) : Bool :=
  p.any (fun i => !(instrPhs i).isEmpty)

/-- Errors raised by the external library; the only one the notebooks meet
is Python's `RuntimeError`, raised by `Program.out` on an unaddressed
placeholder. -/
inductive PyErr : Type
  | RuntimeError

/-- Render one fully addressed instruction as Quil text. -/
def instrText : QInstr → String
  | .H (.idx n) => "H " ++ toString n
  | .CNOT (.idx a) (.idx b) => "CNOT " ++ toString a ++ " " ++ toString b
  | _ => ""

/-- Modelled from the spec: `Program.out()` (external library) raises a
`RuntimeError` when the program contains an unaddressed placeholder, and
otherwise returns the program's Quil text. -/
def Program.out (p : QProgram) : Except PyErr String :=
  if hasPlaceholder p then .error .RuntimeError
  else .ok (String.intercalate "\x0a" (p.map instrText))

/-- The message the notebook prints for the caught error. -/
def errText : PyErr → String
  | .RuntimeError => "RuntimeError"

/-- The notebook's try/except cell: it calls `prog.out()`, catches exactly
`RuntimeError` and prints it; the result pairs the printed text with the
program after the cell, which is the same `prog`. -/
def tryOutCell (p : QProgram) : String × QProgram :=
  match Program.out p with
  | .ok s => (s, p)
  | .error e => (errText e, p)

/-- Apply a placeholder-to-index mapping to one qubit argument; physical
indices are left unchanged, and so are placeholders the mapping misses. -/
def applyMap (m : ℕ → Option ℕ) : Qubit → Qubit
  | .ph i => match m i with
    | some n => .idx n
    | none => .ph i
  | .idx n => .idx n

/-- Apply a placeholder-to-index mapping to one instruction. -/
def mapInstr (m : ℕ → Option ℕ) : QInstr → QInstr
  | .H q => .H (applyMap m q)
  | .CNOT a b => .CNOT (applyMap m a) (applyMap m b)

/-- Modelled from the spec: `address_qubits(prog, qubit_mapping)` (external
library) returns the program with every placeholder replaced by the
physical index the mapping assigns it; it builds a new program and leaves
its input untouched. -/
def address_qubits (p : QProgram) (m : ℕ → Option ℕ) : QProgram :=
  p.map (mapInstr m)

/-- Append `x` to the accumulator unless already present: one step of
collecting placeholders in order of first appearance. -/
def insertIfNew (l : List ℕ) (x : ℕ) : List ℕ :=
  if x ∈ l then l else l ++ [x]

/-- The distinct placeholder ids of a program, in order of first
appearance. -/
def placeholdersOf (p : QProgram) : List ℕ :=
  p.foldl (fun acc i => (instrPhs i).foldl insertIfNew acc) []

/-- Modelled from the spec: the default qubit mapping of `address_qubits`
(external library), which assigns consecutive physical indices starting at
0 to the program's placeholders. -/
def defaultMapping (p : QProgram) : ℕ → Option ℕ := fun q =>
  if q ∈ placeholdersOf p then some ((placeholdersOf p).indexOf q) else none

/-- `address_qubits(prog)` with the mapping argument omitted. -/
def address_qubits_default (p : QProgram) : QProgram :=
  address_qubits p (defaultMapping p)

/-- The notebook's program `Program(H(q0), CNOT(q0, q1))` with the two
placeholders `q0` and `q1`. -/
def nbProg : QProgram :=
  [.H (.ph 0), .CNOT (.ph 0) (.ph 1)]

/-- The notebook's explicit mapping `{q0: 14, q1: 19}`. -/
def nbMapping : ℕ → Option ℕ := fun q =>
  if q = 0 then some 14 else if q = 1 then some 19 else none

/-- `QubitPlaceholder.register(n)`: a list of `n` fresh placeholders; the
model gives them ids `start, start+1, ...`. -/
def register (start n : ℕ) : List Qubit :=
  (List.range n).map (fun i => .ph (start + i))

/-- A concrete stand-in for `qc.run` that returns the same one-row bit
array for every submitted program. -/
def constRun : NoisyProgram → List (ℕ × ℕ) := fun _ => [(0, 1)]

/-! ## Helper lemmas -/

lemma sum_le_length_of_le_one {l : List ℕ} (h : ∀ x ∈ l, x ≤ 1) :
    l.sum ≤ l.length := by
  induction l with
  | nil => simp
  | cons a t ih =>
    have ha := h a (by simp)
    have ht := ih (fun x hx => h x (by simp [hx]))
    simp only [List.sum_cons, List.length_cons]
    omega

lemma length_cast_pos {l : List (ℕ × ℕ)} (h : l ≠ []) :
    (0 : α) < (l.length : α) := by
  exact_mod_cast List.length_pos.mpr h

lemma npMean_nonneg (l : List ℕ) : 0 ≤ (npMean l : α) :=
  div_nonneg (Nat.cast_nonneg _) (Nat.cast_nonneg _)

lemma npMean_le_one {l : List ℕ} (h : l ≠ []) (hb : ∀ x ∈ l, x ≤ 1) :
    (npMean l : α) ≤ 1 := by
  have hpos : (0 : α) < (l.length : α) := by
    exact_mod_cast List.length_pos.mpr h
  rw [npMean, div_le_one hpos]
  exact_mod_cast sum_le_length_of_le_one hb

lemma col0_bits {l : List (ℕ × ℕ)} (hb : isBits l) :
    ∀ x ∈ col0 l, x ≤ 1 := by
  intro x hx
  rcases List.mem_map.mp hx with ⟨r, hr, rfl⟩
  exact (hb r hr).1

lemma col1_bits {l : List (ℕ × ℕ)} (hb : isBits l) :
    ∀ x ∈ col1 l, x ≤ 1 := by
  intro x hx
  rcases List.mem_map.mp hx with ⟨r, hr, rfl⟩
  exact (hb r hr).2

lemma parity_bits (l : List (ℕ × ℕ)) :
    ∀ x ∈ l.map rowParity, x ≤ 1 := by
  intro x hx
  rcases List.mem_map.mp hx with ⟨r, _, rfl⟩
  simp only [rowParity]
  omega

lemma zvals_bounds {l : List (ℕ × ℕ)} (h : l ≠ []) (hb : isBits l) :
    (-1 ≤ (z0 l : α) ∧ (z0 l : α) ≤ 1) ∧
    (-1 ≤ (z1 l : α) ∧ (z1 l : α) ≤ 1) ∧
    (-1 ≤ (zz l : α) ∧ (zz l : α) ≤ 1) := by
  have h0 : col0 l ≠ [] := by simpa [col0] using h
  have h1 : col1 l ≠ [] := by simpa [col1] using h
  have hp : l.map rowParity ≠ [] := by simpa using h
  have m0 := npMean_nonneg (α := α) (col0 l)
  have m0' := npMean_le_one (α := α) h0 (col0_bits hb)
  have m1 := npMean_nonneg (α := α) (col1 l)
  have m1' := npMean_le_one (α := α) h1 (col1_bits hb)
  have mp := npMean_nonneg (α := α) (l.map rowParity)
  have mp' := npMean_le_one (α := α) hp (parity_bits l)
  unfold z0 z1 zz
  refine ⟨⟨?_, ?_⟩, ⟨?_, ?_⟩, ⟨?_, ?_⟩⟩ <;> linarith

lemma sign_product_row {b0 b1 : ℕ} (h0 : b0 ≤ 1) (h1 : b1 ≤ 1) :
    (1 - 2 * (b0 : α)) * (1 - 2 * (b1 : α)) = 1 - 2 * (((b0 + b1) % 2 : ℕ) : α) := by
  interval_cases b0 <;> interval_cases b1 <;> norm_num

lemma sign_product_sum (l : List (ℕ × ℕ)) (hb : isBits l) :
    (l.map (fun r => (1 - 2 * (r.1 : α)) * (1 - 2 * (r.2 : α)))).sum
      = (l.length : α) - 2 * (((l.map rowParity).sum : ℕ) : α) := by
  induction l with
  | nil => simp
  | cons r t ih =>
    have hr := hb r (by simp)
    have ht : isBits t := fun x hx => hb x (by simp [hx])
    simp only [List.map_cons, List.sum_cons, List.length_cons, rowParity]
    rw [sign_product_row (α := α) hr.1 hr.2, ih ht]
    push_cast
    ring

lemma foldl_append_map {β γ : Type} (f : β → γ) (l : List β) (acc : List γ) :
    l.foldl (fun a x => a ++ [f x]) acc = acc ++ l.map f := by
  induction l generalizing acc with
  | nil => simp
  | cons x t ih => simp [ih]

lemma foldl_append_flatMap {β γ : Type} (g : β → List γ) (l : List β) (acc : List γ) :
    l.foldl (fun a x => a ++ g x) acc = acc ++ l.flatMap g := by
  induction l generalizing acc with
  | nil => simp
  | cons x t ih => simp [ih]

lemma sweep_eq (run : NoisyProgram → List (ℕ × ℕ)) :
    sweep run = thetas.flatMap (fun theta =>
      t1s.map (fun t1 => sweepRecord theta t1 (run (noisyAt theta t1)))) := by
  unfold sweep
  have h1 : (fun (records : List SweepRecord) (theta : ℝ) =>
      t1s.foldl
        (fun records t1 => records ++ [sweepRecord theta t1 (run (noisyAt theta t1))])
        records)
      = fun records theta =>
          records ++ t1s.map (fun t1 => sweepRecord theta t1 (run (noisyAt theta t1))) := by
    funext records theta
    exact foldl_append_map _ _ _
  rw [h1, foldl_append_flatMap]
  simp

lemma thetas_length : thetas.length = 20 := by
  rw [thetas, linspace, List.length_map, List.length_range]

lemma t1s_length : t1s.length = 3 := by
  rw [t1s, logspace, linspace, List.length_map, List.length_map, List.length_range]

lemma sum_map_const_nat {β : Type} (l : List β) (c : ℕ) :
    (l.map (fun _ => c)).sum = l.length * c := by
  induction l with
  | nil => simp
  | cons x t ih => simp [ih, Nat.succ_mul, Nat.add_comm]

lemma sweep_length (run : NoisyProgram → List (ℕ × ℕ)) :
    (sweep run).length = 60 := by
  rw [sweep_eq, List.length_flatMap]
  have h : (List.length ∘ fun theta : ℝ =>
      t1s.map (fun t1 => sweepRecord theta t1 (run (noisyAt theta t1)))) = fun _ => 3 := by
    funext theta
    simp only [Function.comp_apply, List.length_map]
    exact t1s_length
  rw [h, sum_map_const_nat, thetas_length]

/-! ## Claim theorems -/

/-- C1: for every non-empty bitstring array whose rows are pairs of bits,
the sweep's aggregation computes `z0 = 1 - 2*(mean of the first bit)`,
`z1 = 1 - 2*(mean of the second bit)` and
`zz = 1 - 2*(mean of (b0 + b1) mod 2)`, by exact elementary arithmetic. -/
theorem aggregation_formulas (l : List (ℕ × ℕ)) (h : l ≠ []) (hb : isBits l) :
    (z0 l : α) = specZ0 l ∧ (z1 l : α) = specZ1 l ∧ (zz l : α) = specZZ l := by
  refine ⟨?_, ?_, ?_⟩ <;>
    simp only [z0, z1, zz, specZ0, specZ1, specZZ, npMean, col0, col1,
      Nat.cast_list_sum, List.map_map, Function.comp_def, rowParity,
      List.length_map] <;>
    ring

/-- Witness for C1 at the concrete array `[(0,1), (1,1)]` over `ℚ`. -/
theorem aggregation_formulas_witness :
    (z0 [(0, 1), (1, 1)] : ℚ) = specZ0 [(0, 1), (1, 1)] ∧
    (z1 [(0, 1), (1, 1)] : ℚ) = specZ1 [(0, 1), (1, 1)] ∧
    (zz [(0, 1), (1, 1)] : ℚ) = specZZ [(0, 1), (1, 1)] :=
  aggregation_formulas [(0, 1), (1, 1)] (by decide) (by decide)

/-- C2: for every non-empty array of bit pairs, the parity-based
`zz = 1 - 2*mean((b0 + b1) mod 2)` equals the mean over all rows of the
product of per-qubit signs `(1 - 2*b0)*(1 - 2*b1)`. -/
theorem zz_parity_eq_sign_mean (l : List (ℕ × ℕ)) (h : l ≠ []) (hb : isBits l) :
    (zz l : α) = signProductMean l := by
  have hn : (0 : α) < (l.length : α) := length_cast_pos h
  rw [zz, signProductMean, sign_product_sum l hb, npMean, List.length_map]
  field_simp
  ring

/-- Witness for C2 at the concrete array `[(0,1), (1,1)]` over `ℚ`. -/
theorem zz_parity_eq_sign_mean_witness :
    (zz [(0, 1), (1, 1)] : ℚ) = signProductMean [(0, 1), (1, 1)] :=
  zz_parity_eq_sign_mean [(0, 1), (1, 1)] (by decide) (by decide)

/-- C3: `prog.out()` on a program with unaddressed placeholders raises
`RuntimeError`, and the notebook's try/except cell catches exactly that
error and prints it, leaving the program unchanged. -/
theorem out_raises_on_placeholder (p : QProgram) (h : hasPlaceholder p = true) :
    Program.out p = Except.error PyErr.RuntimeError ∧
    tryOutCell p = (errText PyErr.RuntimeError, p) := by
  constructor
  · simp [Program.out, h]
  · simp [tryOutCell, Program.out, h]

/-- Witness for C3 at the notebook's program `Program(H(q0), CNOT(q0, q1))`. -/
theorem out_raises_on_placeholder_witness :
    Program.out nbProg = Except.error PyErr.RuntimeError ∧
    tryOutCell nbProg = (errText PyErr.RuntimeError, nbProg) :=
  out_raises_on_placeholder nbProg (by decide)

/-- C4: addressing `Program(H(q0), CNOT(q0, q1))` with the explicit mapping
`{q0: 14, q1: 19}` yields exactly `H 14; CNOT 14 19`, every placeholder is
resolved, and no qubit index other than 14 and 19 appears in the result. -/
theorem address_explicit_mapping :
    address_qubits nbProg nbMapping
      = [QInstr.H (Qubit.idx 14), QInstr.CNOT (Qubit.idx 14) (Qubit.idx 19)] ∧
    progIdxs (address_qubits nbProg nbMapping) = [14, 14, 19] ∧
    hasPlaceholder (address_qubits nbProg nbMapping) = false ∧
    (progIdxs (address_qubits nbProg nbMapping)).all (fun n => n == 14 || n == 19) = true := by
  decide

/-- C5: the sweep is the nested loop with `theta` outer over the 20-point
grid and `t1` inner over the 3-point grid, appending exactly 60 records in
that order; each record carries exactly the fields `z0`, `z1`, `zz`,
`theta`, `t1`, and each grid point submits the noisy program built with
`T1 = t1`, `T2 = t1/2` and 1000 shots. -/
theorem sweep_grid_structure (run : NoisyProgram → List (ℕ × ℕ)) :
    (sweep run).length = 60 ∧ thetas.length = 20 ∧ t1s.length = 3 ∧
    sweep run = thetas.flatMap (fun theta => t1s.map (fun t1 =>
      let bs := run { gates := get_compiled_prog theta, T1 := t1, T2 := t1 / 2,
                      measures := [(0, 0), (1, 1)], shots := 1000 }
      { z0 := z0 bs, z1 := z1 bs, zz := zz bs, theta := theta, t1 := t1 })) := by
  refine ⟨sweep_length run, thetas_length, t1s_length, ?_⟩
  rw [sweep_eq]
  rfl

/-- C6: `get_compiled_prog(theta)` is a fixed sequence of exactly 15
native instructions (`RZ`, `RX` of `± pi/2`, `CZ`) on qubits 0 and 1, and
only the single instruction `RZ(theta, 1)` at position 7 depends on
`theta`: the programs for any two angles agree except in that instruction. -/
theorem get_compiled_prog_fixed_shape (t u : ℝ) :
    (get_compiled_prog t).length = 15 ∧
    (get_compiled_prog t)[7]? = some (GateInstr.RZ t 1) ∧
    get_compiled_prog u = (get_compiled_prog t).set 7 (GateInstr.RZ u 1) ∧
    List.Forall nativeGate (get_compiled_prog t) := by
  refine ⟨rfl, rfl, rfl, ?_⟩
  simp only [get_compiled_prog, List.forall_cons, nativeGate]
  norm_num

/-- C7: the sweep's own code is deterministic: modelling `qc.run` as a
function of the submitted program, two runs that receive identical
bitstring arrays at every grid point — i.e. whose oracles agree on the
programs the sweep actually submits — produce identical records lists. -/
theorem sweep_deterministic (run1 run2 : NoisyProgram → List (ℕ × ℕ))
    (h : ∀ theta ∈ thetas, ∀ t1 ∈ t1s,
      run1 (noisyAt theta t1) = run2 (noisyAt theta t1)) :
    sweep run1 = sweep run2 := by
  rw [sweep_eq, sweep_eq]
  have hmap :
      thetas.map (fun theta =>
        t1s.map (fun t1 => sweepRecord theta t1 (run1 (noisyAt theta t1))))
      = thetas.map (fun theta =>
          t1s.map (fun t1 => sweepRecord theta t1 (run2 (noisyAt theta t1)))) :=
    List.map_congr_left (fun theta htheta =>
      List.map_congr_left (fun t1 ht1 => by rw [h theta htheta t1 ht1]))
  rw [List.flatMap, List.flatMap, hmap]

/-- Witness for C7 with the constant bitstring oracle. -/
theorem sweep_deterministic_witness : sweep constRun = sweep constRun :=
  sweep_deterministic constRun constRun (fun _ _ _ _ => rfl)

/-- C8: `address_qubits` does not mutate its input: the program still holds
its original placeholders after the default-mapping call, so the later call
with the explicit mapping `{q0: 14, q1: 19}` on the same program yields the
explicitly mapped program. -/
theorem address_qubits_no_mutation :
    hasPlaceholder nbProg = true ∧
    placeholdersOf nbProg = [0, 1] ∧
    address_qubits_default nbProg
      = [QInstr.H (Qubit.idx 0), QInstr.CNOT (Qubit.idx 0) (Qubit.idx 1)] ∧
    address_qubits nbProg nbMapping
      = [QInstr.H (Qubit.idx 14), QInstr.CNOT (Qubit.idx 14) (Qubit.idx 19)] := by
  decide

/-- C9: the default mapping of `address_qubits` assigns consecutive indices
from 0 in order of placeholder appearance: the notebook's two-placeholder
program becomes `H 0; CNOT 0 1`, the 8-placeholder register program uses
indices `0..7`, and in general every placeholder of a program with `N`
distinct placeholders gets an index below `N`, distinct placeholders
getting distinct indices. -/
theorem address_default_consecutive (p : QProgram) (q : ℕ)
    (hq : q ∈ placeholdersOf p) :
    address_qubits_default nbProg
      = [QInstr.H (Qubit.idx 0), QInstr.CNOT (Qubit.idx 0) (Qubit.idx 1)] ∧
    placeholdersOf ((register 0 8).map QInstr.H) = List.range 8 ∧
    ∃ k, defaultMapping p q = some k ∧ k < (placeholdersOf p).length ∧
      ∀ r ∈ placeholdersOf p, defaultMapping p r = some k → r = q := by
  refine ⟨by decide, by decide, (placeholdersOf p).indexOf q, ?_, ?_, ?_⟩
  · simp [defaultMapping, hq]
  · exact List.indexOf_lt_length.mpr hq
  · intro r hr heq
    have : (placeholdersOf p).indexOf r = (placeholdersOf p).indexOf q := by
      simpa [defaultMapping, hr] using heq
    exact (List.indexOf_inj hr hq).mp this

/-- Witness for C9 at the notebook's program and its first placeholder. -/
theorem address_default_consecutive_witness :
    address_qubits_default nbProg
      = [QInstr.H (Qubit.idx 0), QInstr.CNOT (Qubit.idx 0) (Qubit.idx 1)] ∧
    placeholdersOf ((register 0 8).map QInstr.H) = List.range 8 ∧
    ∃ k, defaultMapping nbProg 0 = some k ∧ k < (placeholdersOf nbProg).length ∧
      ∀ r ∈ placeholdersOf nbProg, defaultMapping nbProg r = some k → r = 0 :=
  address_default_consecutive nbProg 0 (by decide)

/-- C10: for every non-empty bitstring array with entries in `{0,1}` the
expectation values `z0`, `z1`, `zz` lie in `[-1, 1]`, and every record the
sweep appends satisfies the same bounds whenever the simulator returns
non-empty bit arrays. -/
theorem expectation_values_bounded (l : List (ℕ × ℕ))
    (run : NoisyProgram → List (ℕ × ℕ))
    (h : l ≠ []) (hb : isBits l)
    (hrun : ∀ p, run p ≠ [] ∧ isBits (run p)) :
    ((-1 ≤ (z0 l : ℝ) ∧ (z0 l : ℝ) ≤ 1) ∧
     (-1 ≤ (z1 l : ℝ) ∧ (z1 l : ℝ) ≤ 1) ∧
     (-1 ≤ (zz l : ℝ) ∧ (zz l : ℝ) ≤ 1)) ∧
    ∀ r ∈ sweep run,
      (-1 ≤ r.z0 ∧ r.z0 ≤ 1) ∧ (-1 ≤ r.z1 ∧ r.z1 ≤ 1) ∧ (-1 ≤ r.zz ∧ r.zz ≤ 1) := by
  refine ⟨zvals_bounds h hb, ?_⟩
  intro r hr
  rw [sweep_eq] at hr
  rcases List.mem_flatMap.mp hr with ⟨theta, _, hmem⟩
  rcases List.mem_map.mp hmem with ⟨t1, _, rfl⟩
  exact zvals_bounds (hrun _).1 (hrun _).2

/-- Witness for C10 at the array `[(0,1)]` and the constant oracle. -/
theorem expectation_values_bounded_witness :
    ((-1 ≤ (z0 [(0, 1)] : ℝ) ∧ (z0 [(0, 1)] : ℝ) ≤ 1) ∧
     (-1 ≤ (z1 [(0, 1)] : ℝ) ∧ (z1 [(0, 1)] : ℝ) ≤ 1) ∧
     (-1 ≤ (zz [(0, 1)] : ℝ) ∧ (zz [(0, 1)] : ℝ) ≤ 1)) ∧
    ∀ r ∈ sweep constRun,
      (-1 ≤ r.z0 ∧ r.z0 ≤ 1) ∧ (-1 ≤ r.z1 ∧ r.z1 ≤ 1) ∧ (-1 ≤ r.zz ∧ r.zz ≤ 1) :=
  expectation_values_bounded [(0, 1)] constRun (by decide) (by decide)
    (fun p => ⟨by simp [constRun], by simp [constRun, isBits]⟩)

end PyquilNotebooks
